import Mathlib

/-!
Shallow embedding of the s6-config compiler (src/main.rs).

The embedding models:
- the service record data model (`Service`, `ServiceType`, `Extensions`);
- the enabled-set resolver `transitive_closure` (worklist traversal over the
  dependency graph, with a visited set);
- the extension expander (the log / restart extension blocks of `main`'s loop);
- the per-generation driver body `processGeneration` and the fixed-point
  driver `driveAux` (the `loop` in `main`);
- the bundle-membership decision `classify` (the `user/contents.d` writes).

File-system writes, stdout messages and the logterm side output are I/O
effects outside the model; the canonicalized run-script path used by the
oneshot log template is passed in as an environment function `canonRun`.
Rust's `HashMap<String, Service>` is modeled as an association list, and
`anyhow` failure as `Except String`.
-/

namespace S6

inductive ServiceType where
  | oneShot
  | longRun
  deriving DecidableEq, Repr

structure Log where
  dir : String
  deriving DecidableEq, Repr

structure Restart where
  on_failure : Bool
  deriving DecidableEq, Repr

structure Extensions where
  log : Option Log
  restart : Option Restart
  deriving DecidableEq, Repr

structure Service where
  type_ : ServiceType
  up : Option String
  run : Option String
  finish : Option String
  consumer_for : Option String
  producer_for : Option String
  pipeline_name : Option String
  dependencies : Option (List String)
  extensions : Option Extensions
  deriving DecidableEq, Repr

/-- Template emitted by `log_run` in the source (the derived log-forwarder's
`run` script). -/
def log_run (dir : String) : String :=
  "#!/bin/sh\nexec logutil-service " ++ dir ++ "\n"

/-- Template emitted by `log_up` in the source (the oneshot wrapper `up`
script); braces of the execline block are written with escapes. -/
def log_up (dir : String) (run_script : String) : String :=
  "#!/command/execlineb -P\npipeline -w \x7b logutil-service " ++ dir ++
    " \x7d\nfdmove -c 2 1\n" ++ run_script ++ "\n"

/-- Template emitted by `no_restart_on_failure` in the source. -/
def no_restart_on_failure : String :=
  "#!/bin/sh\nexit 125\n"

/-- Outcome of the bundle-membership decision in `main` (the
`user/contents.d` block): a marker file written under a name, nothing
written, or a non-fatal skip message and nothing written. -/
inductive BundleDecision where
  | visible (asName : String)
  | hidden
  | warnHidden
  deriving DecidableEq, Repr

/-- The bundle-membership decision of `main` lines 206-216: standalone
services are visible under their own name; a consumer that is not a producer
is visible under its pipeline name when it has one (else a warning and
nothing is written); a producer is never visible. -/
def classify (name : String) (s : Service) : BundleDecision :=
  if s.consumer_for.isNone && s.producer_for.isNone then
    .visible name
  else if s.producer_for.isNone then
    match s.pipeline_name with
    | some p => .visible p
    | none => .warnHidden
  else
    .hidden

/-- Dependencies reachable from a name through the service map, as used by
`transitive_closure`: a name absent from the map contributes nothing. -/
def depsOf (services : List (String × Service)) (n : String) : List String :=
  match List.lookup n services with
  | some s => s.dependencies.getD []
  | none => []

/-- Every dependency name appearing anywhere in the service map (used only
for the termination measure of the worklist loop). -/
def allDepNames (services : List (String × Service)) : List String :=
  (services.map (fun p => p.2.dependencies.getD [])).flatten

/-- Termination measure of the worklist: names not yet visited, weighted,
plus the pending worklist length. -/
def tcMeasure (services : List (String × Service)) (visited toVisit : List String) : Nat :=
  ((allDepNames services ++ toVisit).toFinset \ visited.toFinset).card
      * ((allDepNames services).length + 1)
    + toVisit.length

/-- The `while let Some(name) = to_visit.pop()` loop of `transitive_closure`
in the source: pop a name; if unvisited, mark it visited, append it to the
result, and push its dependencies onto the worklist. The worklist stack is
modeled with its top at the list head (the source pops from the Vec's
tail), which only permutes traversal order, never the resulting set; the
source itself draws the initial worklist from an unordered HashMap. -/
def tcLoop (services : List (String × Service)) (visited res toVisit : List String) :
    List String :=
  match toVisit with
  | [] => res
  | n :: rest =>
    if visited.contains n then
      tcLoop services visited res rest
    else
      tcLoop services (n :: visited) (res ++ [n]) (depsOf services n ++ rest)
  termination_by tcMeasure services visited toVisit
  decreasing_by
  · -- popping an already-visited name: same unvisited set, shorter worklist
    have hn : n ∈ visited := by simpa using ‹visited.contains n = true›
    have hset : (allDepNames services ++ rest).toFinset \ visited.toFinset
        = (allDepNames services ++ n :: rest).toFinset \ visited.toFinset := by
      ext x
      simp only [Finset.mem_sdiff, List.mem_toFinset, List.mem_append, List.mem_cons]
      constructor
      · rintro ⟨hx, hxv⟩
        exact ⟨hx.elim Or.inl (fun hr => Or.inr (Or.inr hr)), hxv⟩
      · rintro ⟨hx, hxv⟩
        refine ⟨?_, hxv⟩
        rcases hx with h1 | h2
        · exact Or.inl h1
        · rcases h2 with rfl | h3
          · exact absurd hn hxv
          · exact Or.inr h3
    simp only [tcMeasure, hset, List.length_cons]
    omega
  · -- popping a fresh name: the unvisited set strictly shrinks
    have hn : n ∉ visited := by simpa using ‹¬ visited.contains n = true›
    -- a successful lookup's pair is a member of the association list
    have hlookmem : ∀ (l : List (String × Service)) (k : String) (v : Service),
        List.lookup k l = some v → (k, v) ∈ l := by
      intro l
      induction l with
      | nil => intro k v hkv; simp [List.lookup] at hkv
      | cons p tl ih =>
        intro k v hkv
        obtain ⟨a, b⟩ := p
        rw [List.lookup] at hkv
        split at hkv
        · rename_i hba
          cases hkv
          have hka : k = a := by simpa using hba
          subst hka
          exact List.mem_cons_self _ _
        · exact List.mem_cons_of_mem _ (ih k v hkv)
    -- a member list of a join is no longer than the join
    have hjoinlen : ∀ (L : List (List String)) (l : List String),
        l ∈ L → l.length ≤ L.flatten.length := by
      intro L
      induction L with
      | nil => simp
      | cons hd tl ih =>
        intro l hl
        rcases List.mem_cons.mp hl with rfl | hl
        · simp [List.flatten_cons]
        · have := ih l hl
          simp only [List.flatten_cons, List.length_append]
          omega
    have hdsub : ∀ d ∈ depsOf services n, d ∈ allDepNames services := by
      intro d hd
      rw [depsOf] at hd
      split at hd
      · rename_i s hs
        have hm := hlookmem services n s hs
        simp only [allDepNames, List.mem_flatten]
        exact ⟨s.dependencies.getD [], List.mem_map_of_mem _ hm, hd⟩
      · simp at hd
    have hdlen : (depsOf services n).length ≤ (allDepNames services).length := by
      rw [depsOf]
      split
      · rename_i s hs
        have hm := hlookmem services n s hs
        exact hjoinlen _ _ (List.mem_map_of_mem _ hm)
      · simp
    have hOld : n ∈ (allDepNames services ++ n :: rest).toFinset \ visited.toFinset := by
      rw [Finset.mem_sdiff]
      constructor
      · simp
      · simpa using hn
    have hsub2 : (allDepNames services ++ (depsOf services n ++ rest)).toFinset \
          (n :: visited).toFinset
        ⊆ ((allDepNames services ++ n :: rest).toFinset \ visited.toFinset).erase n := by
      intro x hx
      rw [Finset.mem_sdiff] at hx
      obtain ⟨hx1, hx2⟩ := hx
      simp only [List.mem_toFinset, List.mem_append, List.mem_cons] at hx1 hx2
      push_neg at hx2
      obtain ⟨hxn, hxv⟩ := hx2
      rw [Finset.mem_erase, Finset.mem_sdiff]
      refine ⟨hxn, ?_, by simpa using hxv⟩
      simp only [List.mem_toFinset, List.mem_append, List.mem_cons]
      rcases hx1 with hA | hdr
      · exact Or.inl hA
      · rcases hdr with hd | hr
        · exact Or.inl (hdsub x hd)
        · exact Or.inr (Or.inr hr)
    have hcard : ((allDepNames services ++ (depsOf services n ++ rest)).toFinset \
          (n :: visited).toFinset).card
        < ((allDepNames services ++ n :: rest).toFinset \ visited.toFinset).card :=
      lt_of_le_of_lt (Finset.card_le_card hsub2) (Finset.card_erase_lt_of_mem hOld)
    have hmul : ((allDepNames services ++ (depsOf services n ++ rest)).toFinset \
            (n :: visited).toFinset).card * ((allDepNames services).length + 1)
          + ((allDepNames services).length + 1)
        ≤ ((allDepNames services ++ n :: rest).toFinset \ visited.toFinset).card
            * ((allDepNames services).length + 1) := by
      have h2 := Nat.succ_le_of_lt hcard
      calc ((allDepNames services ++ (depsOf services n ++ rest)).toFinset \
              (n :: visited).toFinset).card * ((allDepNames services).length + 1)
            + ((allDepNames services).length + 1)
          = (((allDepNames services ++ (depsOf services n ++ rest)).toFinset \
              (n :: visited).toFinset).card + 1) * ((allDepNames services).length + 1) := by
            ring
        _ ≤ ((allDepNames services ++ n :: rest).toFinset \ visited.toFinset).card
              * ((allDepNames services).length + 1) :=
            Nat.mul_le_mul_right _ h2
    simp only [tcMeasure, List.length_cons, List.length_append]
    omega

/-- The `transitive_closure` function of the source: resolve the enabled
set from the requested names (all declared names when absent). -/
def transitive_closure (services : List (String × Service))
    (enabled : Option (List String)) : List String :=
  tcLoop services [] [] (enabled.getD (services.map Prod.fst))

/-- Reachability from an initial name set through dependency edges (an edge
exists only from a declared service to each entry of its dependency list). -/
inductive Reachable (services : List (String × Service)) (init : List String) :
    String → Prop where
  | base {n : String} : n ∈ init → Reachable services init n
  | step {n d : String} : Reachable services init n → d ∈ depsOf services n →
      Reachable services init d

/-- The `log` extension block of `main`'s loop (lines 129-166): a oneshot
gets a wrapper `up` script unless `up` is already set; a longrun becomes the
producer of a synthesized derived log-forwarder service unless
`producer_for` is already set. `canonRun` supplies the canonicalized
run-script path the source computes from the output directory. -/
def applyLog (canonRun : String → String) (name : String) (lg : Log) (s : Service) :
    Except String (Service × List (String × Service × Bool)) :=
  match s.type_ with
  | .oneShot =>
    if s.up.isSome then
      Except.error "extension `log` would clobber up for oneshots"
    else
      Except.ok ({ s with up := some (log_up lg.dir (canonRun name)) }, [])
  | .longRun =>
    if s.producer_for.isSome then
      Except.error "extension `log` would clobber producer-for"
    else
      Except.ok ({ s with producer_for := some (name ++ "-log") },
        [(name ++ "-log",
          { type_ := .longRun
            up := none
            run := some (log_run lg.dir)
            finish := none
            consumer_for := some name
            producer_for := none
            pipeline_name := some (name ++ "-with-logs")
            dependencies := s.dependencies
            extensions := none }, true)])

/-- The `restart` extension block of `main`'s loop (lines 167-174): when
`on_failure` is false, set `finish` to the exit-125 template unless `finish`
is already set; when true, do nothing. -/
def applyRestart (r : Restart) (s : Service) : Except String Service :=
  if !r.on_failure then
    if s.finish.isSome then
      Except.error "extension `restart` would clobber finish"
    else
      Except.ok { s with finish := some no_restart_on_failure }
  else
    Except.ok s

/-- Extension processing for one record (`main` lines 128-175): the log
block runs first, then the restart block, each only when its extension is
present; the record's other fields pass through unchanged. -/
def expandService (canonRun : String → String) (name : String) (s : Service) :
    Except String (Service × List (String × Service × Bool)) :=
  match s.extensions with
  | none => Except.ok (s, [])
  | some ext =>
    match (match ext.log with
           | none => Except.ok (s, [])
           | some lg => applyLog canonRun name lg s) with
    | Except.error e => Except.error e
    | Except.ok (s1, ds) =>
      match (match ext.restart with
             | none => Except.ok s1
             | some r => applyRestart r s1) with
      | Except.error e => Except.error e
      | Except.ok s2 => Except.ok (s2, ds)

/-- Whether an `Except` computation failed. -/
def isError {ε α : Type} : Except ε α → Bool
  | Except.error _ => true
  | Except.ok _ => false

/-- One finalized record as handed to the output collaborator: its name, its
post-expansion fields, and its bundle decision. -/
structure Emitted where
  name : String
  service : Service
  bundle : BundleDecision
  deriving DecidableEq, Repr

/-- The body of one iteration of `main`'s `loop` (lines 120-217): each
record that is neither enabled nor derived is skipped; every other record is
expanded (fatally on conflict), emitted with its bundle decision, and its
derived services are collected for the next generation tagged derived. -/
def processGeneration (enabled : List String) (canonRun : String → String) :
    List (String × Service × Bool) →
      Except String (List Emitted × List (String × Service × Bool))
  | [] => Except.ok ([], [])
  | (name, s, derived) :: rest =>
    if !enabled.contains name && !derived then
      processGeneration enabled canonRun rest
    else
      match expandService canonRun name s with
      | Except.error e => Except.error e
      | Except.ok (s2, ds) =>
        match processGeneration enabled canonRun rest with
        | Except.error e => Except.error e
        | Except.ok (em, next) =>
          Except.ok (⟨name, s2, classify name s2⟩ :: em, ds ++ next)

/-- Number of records in a generation that still carry extensions (the
driver's termination measure: every derived record carries none). -/
def countExt (gen : List (String × Service × Bool)) : Nat :=
  (gen.filter (fun e => e.2.1.extensions.isSome)).length

/-- The membership check of `main` lines 105-112: every explicitly requested
name must be a declared service, checked in order, failing at the first
missing one. -/
def checkEnabled (services : List (String × Service)) :
    List String → Except String Unit
  | [] => Except.ok ()
  | n :: rest =>
    if (List.lookup n services).isNone then
      Except.error ("service " ++ n ++ " not found but was specified in --services-enabled")
    else
      checkEnabled services rest

/-- The enabled-set resolution phase of `main` (lines 102-114): validate the
requested names, then take the transitive closure. -/
def resolveEnabled (services : List (String × Service))
    (enabled : Option (List String)) : Except String (List String) :=
  match enabled with
  | none => Except.ok (transitive_closure services none)
  | some l =>
    match checkEnabled services l with
    | Except.error e => Except.error e
    | Except.ok _ => Except.ok (transitive_closure services (some l))

/-- The fixed-point driver (`main`'s `loop`): process a generation, stop
when it produced no derived services, else continue with the derived
generation. Termination: every derived record carries no extensions, and a
generation without extensions derives nothing. -/
def driveAux (enabled : List String) (canonRun : String → String)
    (gen : List (String × Service × Bool)) : Except String (List Emitted) :=
  match hpg : processGeneration enabled canonRun gen with
  | Except.error e => Except.error e
  | Except.ok (emitted, next) =>
    if hne : next.isEmpty then
      Except.ok emitted
    else
      match driveAux enabled canonRun next with
      | Except.error e => Except.error e
      | Except.ok more => Except.ok (emitted ++ more)
  termination_by countExt gen
  decreasing_by
  have E1 : ∀ (nm : String) (s s2 : Service) (ds : List (String × Service × Bool)),
      expandService canonRun nm s = Except.ok (s2, ds) →
      ∀ e ∈ ds, e.2.1.extensions.isSome = false := by
    intro nm s s2 ds hok e he
    rw [expandService] at hok
    split at hok
    · cases hok; simp at he
    · split at hok
      · exact absurd hok (by simp)
      · rename_i heq1
        split at hok
        · exact absurd hok (by simp)
        · cases hok
          split at heq1
          · cases heq1; simp at he
          · rw [applyLog] at heq1
            split at heq1
            · split at heq1
              · exact absurd heq1 (by simp)
              · cases heq1; simp at he
            · split at heq1
              · exact absurd heq1 (by simp)
              · cases heq1
                simp only [List.mem_singleton] at he
                subst he
                simp
  have E2 : ∀ (nm : String) (s : Service), s.extensions = none →
      expandService canonRun nm s = Except.ok (s, []) := by
    intro nm s h
    rw [expandService, h]
  have K : ∀ (g : List (String × Service × Bool)) em nx,
      processGeneration enabled canonRun g = Except.ok (em, nx) →
      (∀ e ∈ nx, e.2.1.extensions.isSome = false) ∧ (countExt g = 0 → nx = []) := by
    intro g
    induction g with
    | nil =>
      intro em nx h
      rw [processGeneration] at h
      cases h
      exact ⟨by simp, fun _ => rfl⟩
    | cons hd tl ih =>
      intro em nx h
      obtain ⟨nm, s, dv⟩ := hd
      rw [processGeneration] at h
      split at h
      · have htl := ih em nx h
        refine ⟨htl.1, fun hc => htl.2 ?_⟩
        have hmono : countExt tl ≤ countExt ((nm, s, dv) :: tl) := by
          simp only [countExt, List.filter_cons]
          split
          · simp
          · exact le_rfl
        omega
      · split at h
        · exact absurd h (by simp)
        · rename_i s2 ds hexp
          split at h
          · exact absurd h (by simp)
          · rename_i em' next' hpg'
            cases h
            have htl := ih em' next' hpg'
            constructor
            · intro e he
              rcases List.mem_append.mp he with hds | hnx
              · exact E1 nm s s2 ds hexp e hds
              · exact htl.1 e hnx
            · intro hc
              have hp : s.extensions.isSome = false := by
                cases hx : s.extensions.isSome
                · rfl
                · exfalso
                  simp only [countExt, List.filter_cons] at hc
                  simp [hx] at hc
              have hnone : s.extensions = none := by
                cases hx : s.extensions
                · rfl
                · rw [hx] at hp; simp at hp
              have hds : ds = [] := by
                have hne2 := E2 nm s hnone
                rw [hne2] at hexp
                cases hexp
                rfl
              have hctl : countExt tl = 0 := by
                have hmono : countExt tl ≤ countExt ((nm, s, dv) :: tl) := by
                  simp only [countExt, List.filter_cons]
                  split
                  · simp
                  · exact le_rfl
                omega
              rw [hds, htl.2 hctl]
              rfl
  have hK := K gen emitted next hpg
  have h1 : countExt next = 0 := by
    simp only [countExt]
    rw [List.length_eq_zero, List.filter_eq_nil_iff]
    intro e he
    simp [hK.1 e he]
  have h2 : countExt gen ≠ 0 := by
    intro h0
    exact hne (by simp [hK.2 h0])
  omega

/-- The whole compiler pipeline of `main` after input parsing: resolve the
enabled set, then drive expansion and emission over the declared services
(generation zero, tagged not derived). -/
def compile (canonRun : String → String) (services : List (String × Service))
    (servicesEnabled : Option (List String)) : Except String (List Emitted) :=
  match resolveEnabled services servicesEnabled with
  | Except.error e => Except.error e
  | Except.ok enabled =>
    driveAux enabled canonRun (services.map (fun p => (p.1, p.2, false)))


/-- Fixed environment for concrete evaluations: the canonicalized run-script
path the source would compute for a service under the output directory. -/
def canonRun0 : String → String := fun n => "/out/" ++ n ++ "/run"

/-- A longrun service with every optional field unset. -/
def svcBase : Service :=
  { type_ := ServiceType.longRun
    up := none
    run := none
    finish := none
    consumer_for := none
    producer_for := none
    pipeline_name := none
    dependencies := none
    extensions := none }

/-- A service depending on the (possibly undeclared) name "b". -/
def svcDepB : Service := { svcBase with dependencies := some ["b"] }

/-- A one-service map whose only service depends on an undeclared name. -/
def services1 : List (String × Service) := [("a", svcDepB)]

/-- A two-service map with the dependency edge a -> b. -/
def services2 : List (String × Service) := [("a", svcDepB), ("b", svcBase)]

/-- A longrun service carrying only the log extension. -/
def svcWeb : Service :=
  { svcBase with extensions := some { log := some { dir := "/var/log/web" }, restart := none } }

/-- A service carrying only the restart extension with on_failure false. -/
def svcRstF : Service :=
  { svcBase with extensions := some { log := none, restart := some { on_failure := false } } }

/-- A service carrying only the restart extension with on_failure true. -/
def svcRstT : Service :=
  { svcBase with extensions := some { log := none, restart := some { on_failure := true } } }

/-- The original "web" service after log expansion set its producer. -/
def svcWebProducer : Service := { svcWeb with producer_for := some "web-log" }

/-- The derived log-forwarder record expansion synthesizes for "web". -/
def svcWebLog : Service :=
  { type_ := ServiceType.longRun
    up := none
    run := some (log_run "/var/log/web")
    finish := none
    consumer_for := some "web"
    producer_for := none
    pipeline_name := some "web-with-logs"
    dependencies := none
    extensions := none }


theorem tcLoop_mem_of_mem_res :
    ∀ (services : List (String × Service)) (visited res toVisit : List String),
      ∀ x ∈ res, x ∈ tcLoop services visited res toVisit := by
  intro services visited res toVisit
  induction visited, res, toVisit using tcLoop.induct services with
  | case1 visited res =>
    intro x hx
    rw [tcLoop]
    exact hx
  | case2 visited res n rest h ih =>
    intro x hx
    rw [tcLoop]
    simp only [h, if_true]
    exact ih x hx
  | case3 visited res n rest h ih =>
    intro x hx
    rw [tcLoop]
    simp only [h, if_false]
    exact ih x (List.mem_append_left _ hx)

theorem mem_of_lookup_eq_some :
    ∀ (l : List (String × Service)) (k : String) (v : Service),
      List.lookup k l = some v → (k, v) ∈ l := by
  intro l
  induction l with
  | nil => intro k v hkv; simp [List.lookup] at hkv
  | cons p tl ih =>
    intro k v hkv
    obtain ⟨a, b⟩ := p
    rw [List.lookup] at hkv
    split at hkv
    · rename_i hba
      cases hkv
      have hka : k = a := by simpa using hba
      subst hka
      exact List.mem_cons_self _ _
    · exact List.mem_cons_of_mem _ (ih k v hkv)

theorem depsOf_subset_allDepNames (services : List (String × Service)) (n : String) :
    ∀ d ∈ depsOf services n, d ∈ allDepNames services := by
  intro d hd
  rw [depsOf] at hd
  split at hd
  · rename_i s hs
    have hm := mem_of_lookup_eq_some services n s hs
    simp only [allDepNames, List.mem_flatten]
    exact ⟨s.dependencies.getD [], List.mem_map_of_mem _ hm, hd⟩
  · simp at hd

theorem tcLoop_mem_of_mem_toVisit :
    ∀ (services : List (String × Service)) (visited res toVisit : List String),
      (∀ y ∈ visited, y ∈ res) →
      ∀ x ∈ toVisit, x ∈ tcLoop services visited res toVisit := by
  intro services visited res toVisit
  induction visited, res, toVisit using tcLoop.induct services with
  | case1 visited res =>
    intro _ x hx
    simp at hx
  | case2 visited res n rest h ih =>
    intro hvr x hx
    rw [tcLoop]
    simp only [h, if_true]
    rcases List.mem_cons.mp hx with rfl | hx
    · exact tcLoop_mem_of_mem_res services visited res rest x (hvr x (by simpa using h))
    · exact ih hvr x hx
  | case3 visited res n rest h ih =>
    intro hvr x hx
    rw [tcLoop]
    simp only [h, if_false]
    have hvr' : ∀ y ∈ n :: visited, y ∈ res ++ [n] := by
      intro y hy
      rcases List.mem_cons.mp hy with rfl | hy
      · exact List.mem_append_right _ (List.mem_singleton.mpr rfl)
      · exact List.mem_append_left _ (hvr y hy)
    rcases List.mem_cons.mp hx with rfl | hx
    · exact tcLoop_mem_of_mem_res services (x :: visited) (res ++ [x])
        (depsOf services x ++ rest) x (List.mem_append_right _ (List.mem_singleton.mpr rfl))
    · exact ih hvr' x (List.mem_append_right _ hx)

theorem tcLoop_closed :
    ∀ (services : List (String × Service)) (visited res toVisit : List String),
      (∀ y ∈ visited, y ∈ res) →
      (∀ x ∈ res, ∀ d ∈ depsOf services x, d ∈ visited ∨ d ∈ toVisit) →
      ∀ x ∈ tcLoop services visited res toVisit, ∀ d ∈ depsOf services x,
        d ∈ tcLoop services visited res toVisit := by
  intro services visited res toVisit
  induction visited, res, toVisit using tcLoop.induct services with
  | case1 visited res =>
    intro hvr hcl x hx d hd
    rw [tcLoop] at hx ⊢
    rcases hcl x hx d hd with hv | hv
    · exact hvr d hv
    · simp at hv
  | case2 visited res n rest h ih =>
    intro hvr hcl x hx d hd
    rw [tcLoop] at hx ⊢
    simp only [h, if_true] at hx ⊢
    refine ih hvr ?_ x hx d hd
    intro y hy e he
    rcases hcl y hy e he with hv | hv
    · exact Or.inl hv
    · rcases List.mem_cons.mp hv with rfl | hv
      · exact Or.inl (by simpa using h)
      · exact Or.inr hv
  | case3 visited res n rest h ih =>
    intro hvr hcl x hx d hd
    rw [tcLoop] at hx ⊢
    simp only [h, if_false] at hx ⊢
    have hvr' : ∀ y ∈ n :: visited, y ∈ res ++ [n] := by
      intro y hy
      rcases List.mem_cons.mp hy with rfl | hy
      · exact List.mem_append_right _ (List.mem_singleton.mpr rfl)
      · exact List.mem_append_left _ (hvr y hy)
    refine ih hvr' ?_ x hx d hd
    intro y hy e he
    rcases List.mem_append.mp hy with hy | hy
    · rcases hcl y hy e he with hv | hv
      · exact Or.inl (List.mem_cons_of_mem _ hv)
      · rcases List.mem_cons.mp hv with rfl | hv
        · exact Or.inl (List.mem_cons_self _ _)
        · exact Or.inr (List.mem_append_right _ hv)
    · have hyn : y = n := by simpa using hy
      subst hyn
      exact Or.inr (List.mem_append_left _ he)

theorem tcLoop_subset :
    ∀ (services : List (String × Service)) (visited res toVisit : List String),
      ∀ x ∈ tcLoop services visited res toVisit,
        x ∈ res ∨ x ∈ toVisit ∨ x ∈ allDepNames services := by
  intro services visited res toVisit
  induction visited, res, toVisit using tcLoop.induct services with
  | case1 visited res =>
    intro x hx
    rw [tcLoop] at hx
    exact Or.inl hx
  | case2 visited res n rest h ih =>
    intro x hx
    rw [tcLoop] at hx
    simp only [h, if_true] at hx
    rcases ih x hx with hx | hx | hx
    · exact Or.inl hx
    · exact Or.inr (Or.inl (List.mem_cons_of_mem _ hx))
    · exact Or.inr (Or.inr hx)
  | case3 visited res n rest h ih =>
    intro x hx
    rw [tcLoop] at hx
    simp only [h, if_false] at hx
    rcases ih x hx with hx | hx | hx
    · rcases List.mem_append.mp hx with hx | hx
      · exact Or.inl hx
      · have hxn : x = n := by simpa using hx
        subst hxn
        exact Or.inr (Or.inl (List.mem_cons_self _ _))
    · rcases List.mem_append.mp hx with hx | hx
      · exact Or.inr (Or.inr (depsOf_subset_allDepNames services n x hx))
      · exact Or.inr (Or.inl (List.mem_cons_of_mem _ hx))
    · exact Or.inr (Or.inr hx)

theorem tcLoop_sound (R : String → Prop) :
    ∀ (services : List (String × Service)) (visited res toVisit : List String),
      (∀ n, R n → ∀ d ∈ depsOf services n, R d) →
      (∀ x ∈ res, R x) → (∀ x ∈ toVisit, R x) →
      ∀ x ∈ tcLoop services visited res toVisit, R x := by
  intro services visited res toVisit
  induction visited, res, toVisit using tcLoop.induct services with
  | case1 visited res =>
    intro _ hres _ x hx
    rw [tcLoop] at hx
    exact hres x hx
  | case2 visited res n rest h ih =>
    intro hstep hres htv x hx
    rw [tcLoop] at hx
    simp only [h, if_true] at hx
    exact ih hstep hres (fun y hy => htv y (List.mem_cons_of_mem _ hy)) x hx
  | case3 visited res n rest h ih =>
    intro hstep hres htv x hx
    rw [tcLoop] at hx
    simp only [h, if_false] at hx
    have hRn : R n := htv n (List.mem_cons_self _ _)
    refine ih hstep ?_ ?_ x hx
    · intro y hy
      rcases List.mem_append.mp hy with hy | hy
      · exact hres y hy
      · have : y = n := by simpa using hy
        subst this
        exact hRn
    · intro y hy
      rcases List.mem_append.mp hy with hy | hy
      · exact hstep n hRn y hy
      · exact htv y (List.mem_cons_of_mem _ hy)

theorem tc_mem_init (services : List (String × Service)) (enabled : Option (List String)) :
    ∀ n ∈ enabled.getD (services.map Prod.fst), n ∈ transitive_closure services enabled := by
  intro n hn
  exact tcLoop_mem_of_mem_toVisit services [] [] _ (by simp) n hn

theorem tc_closed (services : List (String × Service)) (enabled : Option (List String)) :
    ∀ x ∈ transitive_closure services enabled, ∀ d ∈ depsOf services x,
      d ∈ transitive_closure services enabled := by
  exact tcLoop_closed services [] [] _ (by simp) (by simp)

theorem tc_subset (services : List (String × Service)) (enabled : Option (List String)) :
    ∀ x ∈ transitive_closure services enabled,
      x ∈ enabled.getD (services.map Prod.fst) ∨ x ∈ allDepNames services := by
  intro x hx
  rcases tcLoop_subset services [] [] _ x hx with hx | hx | hx
  · simp at hx
  · exact Or.inl hx
  · exact Or.inr hx

theorem expandService_derived_clean (cr : String → String) (nm : String) (s : Service)
    (s2 : Service) (ds : List (String × Service × Bool))
    (hok : expandService cr nm s = Except.ok (s2, ds)) :
    ∀ e ∈ ds, e.2.1.extensions = none ∧ e.2.1.up = none ∧ e.2.1.finish = none ∧
      e.2.1.producer_for = none ∧ e.2.2 = true := by
  intro e he
  rw [expandService] at hok
  split at hok
  · cases hok; simp at he
  · split at hok
    · exact absurd hok (by simp)
    · rename_i heq1
      split at hok
      · exact absurd hok (by simp)
      · cases hok
        split at heq1
        · cases heq1; simp at he
        · rw [applyLog] at heq1
          split at heq1
          · split at heq1
            · exact absurd heq1 (by simp)
            · cases heq1; simp at he
          · split at heq1
            · exact absurd heq1 (by simp)
            · cases heq1
              simp only [List.mem_singleton] at he
              subst he
              exact ⟨rfl, rfl, rfl, rfl, rfl⟩

theorem expandService_no_ext (cr : String → String) (nm : String) (s : Service)
    (h : s.extensions = none) : expandService cr nm s = Except.ok (s, []) := by
  rw [expandService, h]

theorem processGeneration_derived (enabled : List String) (canonRun : String → String) :
    ∀ (g : List (String × Service × Bool)) em nx,
      processGeneration enabled canonRun g = Except.ok (em, nx) →
      ∀ e ∈ nx, e.2.1.extensions = none ∧ e.2.1.up = none ∧ e.2.1.finish = none ∧
        e.2.1.producer_for = none ∧ e.2.2 = true := by
  intro g
  induction g with
  | nil =>
    intro em nx h e he
    rw [processGeneration] at h
    cases h
    simp at he
  | cons hd tl ih =>
    intro em nx h e he
    obtain ⟨nm, s, dv⟩ := hd
    rw [processGeneration] at h
    split at h
    · exact ih em nx h e he
    · split at h
      · exact absurd h (by simp)
      · rename_i s2 ds hexp
        split at h
        · exact absurd h (by simp)
        · rename_i em' next' hpg'
          cases h
          rcases List.mem_append.mp he with hds | hnx
          · exact expandService_derived_clean canonRun nm s s2 ds hexp e hds
          · exact ih em' next' hpg' e hnx

theorem processGeneration_no_ext (enabled : List String) (canonRun : String → String) :
    ∀ (g : List (String × Service × Bool)),
      (∀ e ∈ g, e.2.1.extensions = none) →
      ∃ em, processGeneration enabled canonRun g = Except.ok (em, []) := by
  intro g
  induction g with
  | nil => exact fun _ => ⟨[], rfl⟩
  | cons hd tl ih =>
    intro hall
    obtain ⟨nm, s, dv⟩ := hd
    obtain ⟨em, hem⟩ := ih (fun e he => hall e (List.mem_cons_of_mem _ he))
    have hs : s.extensions = none := hall (nm, s, dv) (List.mem_cons_self _ _)
    rw [processGeneration]
    by_cases hc : (!enabled.contains nm && !dv) = true
    · rw [if_pos hc]
      exact ⟨em, hem⟩
    · rw [if_neg hc]
      rw [expandService_no_ext canonRun nm s hs, hem]
      exact ⟨⟨nm, s, classify nm s⟩ :: em, by simp⟩

/-- Claim C1 (counterexample): with `requested` absent, a dependency on an
undeclared name ends up in the result, so the result is not exactly the
declared name set; and with `requested` present but empty, the result is
empty rather than the declared name set. -/
theorem c1_resolver_counterexample :
    ("b" ∈ transitive_closure services1 none ∧ "b" ∉ services1.map Prod.fst) ∧
    (transitive_closure [("a", svcBase)] (some []) = [] ∧
      "a" ∈ [("a", svcBase)].map Prod.fst) := by
  refine ⟨⟨?_, ?_⟩, ?_, ?_⟩
  · simp [transitive_closure, services1, tcLoop, depsOf, svcDepB, svcBase, List.lookup]
  · simp [services1]
  · simp [transitive_closure, tcLoop]
  · simp

/-- Claim C1 (amended): with `requested` absent the resolver returns exactly the
declared names provided every dependency of a declared service is itself
declared (otherwise undeclared dependency names are included as well); with
`requested` present but empty it returns the empty set. -/
theorem c1_resolver_all_declared :
    (∀ (services : List (String × Service)),
      (∀ p ∈ services, ∀ d ∈ p.2.dependencies.getD [], d ∈ services.map Prod.fst) →
      ∀ n, n ∈ transitive_closure services none ↔ n ∈ services.map Prod.fst) ∧
    (∀ (services : List (String × Service)), transitive_closure services (some []) = []) := by
  constructor
  · intro services hdeps n
    constructor
    · intro hn
      rcases tc_subset services none n hn with hx | hx
      · simpa using hx
      · simp only [allDepNames, List.mem_flatten] at hx
        obtain ⟨l, hl, hnl⟩ := hx
        simp only [List.mem_map] at hl
        obtain ⟨p, hp, rfl⟩ := hl
        exact hdeps p hp n hnl
    · intro hn
      exact tc_mem_init services none n (by simpa using hn)
  · intro services
    simp [transitive_closure, tcLoop]

/-- Claim C1 (witness): on the two-service map a -> b with all dependencies
declared, the no-request resolution contains the declared name "b"; the
empty request resolves to the empty set. -/
theorem c1_resolver_witness :
    "b" ∈ transitive_closure services2 none ∧
    transitive_closure [("a", svcBase)] (some []) = [] := by
  constructor
  · exact (c1_resolver_all_declared.1 services2
      (by decide) "b").mpr (by simp [services2])
  · exact c1_resolver_all_declared.2 [("a", svcBase)]

/-- Claim C2: applying the log extension to a longrun service with producer_for
unset yields exactly one derived longrun record named "name-log" consuming
the original, with pipeline name "name-with-logs", the log-forwarder run
template, and the original's dependencies; the original only gains
producer_for = "name-log", keeping its up and run. -/
theorem c2_log_longrun (canonRun : String → String) (name : String) (lg : Log) (s : Service)
    (htype : s.type_ = ServiceType.longRun) (hpf : s.producer_for = none)
    (hext : s.extensions = some { log := some lg, restart := none }) :
    expandService canonRun name s =
      Except.ok ({ s with producer_for := some (name ++ "-log") },
        [(name ++ "-log",
          { type_ := ServiceType.longRun
            up := none
            run := some (log_run lg.dir)
            finish := none
            consumer_for := some name
            producer_for := none
            pipeline_name := some (name ++ "-with-logs")
            dependencies := s.dependencies
            extensions := none }, true)]) := by
  simp [expandService, applyLog, hext, htype, hpf]

/-- Claim C2 (witness): concrete expansion of the service "web" carrying only the
log extension. -/
theorem c2_log_longrun_witness :
    expandService canonRun0 "web" svcWeb =
      Except.ok ({ svcWeb with producer_for := some ("web" ++ "-log") },
        [("web" ++ "-log",
          { type_ := ServiceType.longRun
            up := none
            run := some (log_run "/var/log/web")
            finish := none
            consumer_for := some "web"
            producer_for := none
            pipeline_name := some ("web" ++ "-with-logs")
            dependencies := svcWeb.dependencies
            extensions := none }, true)]) :=
  c2_log_longrun canonRun0 "web" { dir := "/var/log/web" } svcWeb rfl rfl rfl

/-- Claim C3: the bundle decision rules — standalone services are visible under
their own name; a consumer that is not a producer is visible under its
pipeline name when set and otherwise warned and hidden; a producer is
always hidden. -/
theorem c3_bundle_classification (name : String) (s : Service) :
    (s.consumer_for = none ∧ s.producer_for = none →
      classify name s = BundleDecision.visible name) ∧
    (s.producer_for = none → s.consumer_for ≠ none →
      (∀ p, s.pipeline_name = some p → classify name s = BundleDecision.visible p) ∧
      (s.pipeline_name = none → classify name s = BundleDecision.warnHidden)) ∧
    (s.producer_for ≠ none → classify name s = BundleDecision.hidden) := by
  obtain ⟨t, u0, r0, f0, c0, p0, pn0, d0, e0⟩ := s
  rcases c0 with _ | c0 <;> rcases p0 with _ | p0 <;> rcases pn0 with _ | pn0 <;>
    simp [classify]

/-- Claim C3 (witness): a standalone service is visible under its own name; a
producer is hidden; a consumer with a pipeline name is visible under it. -/
theorem c3_bundle_classification_witness :
    classify "api" svcBase = BundleDecision.visible "api" ∧
    classify "api" { svcBase with producer_for := some "api-log" } = BundleDecision.hidden ∧
    classify "api-log" { svcBase with consumer_for := some "api", pipeline_name := some "api-with-logs" } = BundleDecision.visible "api-with-logs" := by
  refine ⟨(c3_bundle_classification "api" svcBase).1 ⟨rfl, rfl⟩,
    (c3_bundle_classification "api" _).2.2 (by simp),
    ((c3_bundle_classification "api-log" _).2.1 rfl (by simp)).1 "api-with-logs" rfl⟩

/-- Claim C4: extension expansion fails exactly when an extension would overwrite
an already-set field: log on a oneshot with up set, log on a longrun with
producer_for set, or restart with on_failure false and finish set. -/
theorem c4_extension_conflict (canonRun : String → String) (name : String) (s : Service) :
    isError (expandService canonRun name s) = true ↔
      ∃ ext, s.extensions = some ext ∧
        ((∃ lg, ext.log = some lg ∧
            ((s.type_ = ServiceType.oneShot ∧ s.up ≠ none) ∨
             (s.type_ = ServiceType.longRun ∧ s.producer_for ≠ none))) ∨
         (∃ r, ext.restart = some r ∧ r.on_failure = false ∧ s.finish ≠ none)) := by
  obtain ⟨t, u0, r0, f0, c0, p0, pn0, d0, e0⟩ := s
  rcases e0 with _ | ⟨lo, re⟩
  · simp [expandService, isError]
  · rcases lo with _ | ⟨dir0⟩ <;> rcases re with - | ⟨_ | _⟩ <;> cases t <;>
      rcases u0 with _ | u0 <;> rcases p0 with _ | p0 <;> rcases f0 with _ | f0 <;>
      simp [expandService, applyLog, applyRestart, isError]

/-- Claim C5: a generation record neither derived nor enabled is skipped — the
generation's outcome is as if the record were absent, with no expansion, no
emission and no error — while a record tagged derived is expanded and
emitted regardless of the enabled set. -/
theorem c5_enabled_filter (enabled : List String) (canonRun : String → String)
    (n : String) (s : Service) (rest : List (String × Service × Bool)) :
    (enabled.contains n = false →
      processGeneration enabled canonRun ((n, s, false) :: rest) =
        processGeneration enabled canonRun rest) ∧
    (∀ s2 ds em next, expandService canonRun n s = Except.ok (s2, ds) →
      processGeneration enabled canonRun rest = Except.ok (em, next) →
      processGeneration enabled canonRun ((n, s, true) :: rest) =
        Except.ok (⟨n, s2, classify n s2⟩ :: em, ds ++ next)) := by
  constructor
  · intro hc
    have hcond : (!enabled.contains n && !false) = true := by rw [hc]; rfl
    rw [processGeneration, if_pos hcond]
  · intro s2 ds em next hexp hrest
    have hcond : ¬((!enabled.contains n && !true) = true) := by simp
    rw [processGeneration, if_neg hcond, hexp, hrest]

/-- Claim C5 (witness): with enabled set containing only "x", the plain record
"a" is skipped (same outcome as the empty generation), while the same
record tagged derived is expanded and emitted. -/
theorem c5_enabled_filter_witness :
    processGeneration ["x"] canonRun0 [("a", svcBase, false)] =
      processGeneration ["x"] canonRun0 [] ∧
    processGeneration ["x"] canonRun0 [("a", svcBase, true)] =
      Except.ok ([⟨"a", svcBase, classify "a" svcBase⟩], []) := by
  refine ⟨(c5_enabled_filter ["x"] canonRun0 "a" svcBase []).1 (by decide), ?_⟩
  have h2 := (c5_enabled_filter ["x"] canonRun0 "a" svcBase []).2 svcBase [] [] [] rfl rfl
  simpa using h2

/-- Claim C6: every requested name is in the resolver's result; the result is
closed under the dependencies of declared services; and a dependency naming
an undeclared service contributes no edges (and raises no error — the
resolver is total). -/
theorem c6_requested_and_closure (services : List (String × Service)) (l : List String) :
    (∀ n ∈ l, n ∈ transitive_closure services (some l)) ∧
    (∀ x ∈ transitive_closure services (some l), ∀ s, List.lookup x services = some s →
      ∀ d ∈ s.dependencies.getD [], d ∈ transitive_closure services (some l)) ∧
    (∀ n, List.lookup n services = none → depsOf services n = []) := by
  refine ⟨?_, ?_, ?_⟩
  · intro n hn
    exact tc_mem_init services (some l) n (by simpa using hn)
  · intro x hx s hs d hd
    refine tc_closed services (some l) x hx d ?_
    rw [depsOf, hs]
    exact hd
  · intro n hn
    rw [depsOf, hn]

/-- Claim C6 (witness): requesting "a" on the map a -> b puts "a" in the result,
and closure puts its dependency "b" there too. -/
theorem c6_requested_and_closure_witness :
    "a" ∈ transitive_closure services2 (some ["a"]) ∧
    "b" ∈ transitive_closure services2 (some ["a"]) := by
  have h1 := (c6_requested_and_closure services2 ["a"]).1 "a" (by simp)
  refine ⟨h1, ?_⟩
  exact (c6_requested_and_closure services2 ["a"]).2.1 "a" h1 svcDepB (by rfl) "b" (by simp [svcDepB, svcBase])

/-- Claim C7: a requested name that is not declared makes the enabled-set check
fail with the unknown-service error, and the same error is the outcome of
the whole pipeline — no traversal result, expansion or emission is
produced. -/
theorem c7_unknown_service (canonRun : String → String)
    (services : List (String × Service)) (l : List String)
    (h : ∃ n ∈ l, List.lookup n services = none) :
    ∃ msg, checkEnabled services l = Except.error msg ∧
      resolveEnabled services (some l) = Except.error msg ∧
      compile canonRun services (some l) = Except.error msg := by
  have hchk : ∀ (ns : List String), (∃ n ∈ ns, List.lookup n services = none) →
      ∃ msg, checkEnabled services ns = Except.error msg := by
    intro ns
    induction ns with
    | nil => intro h'; simp at h'
    | cons m tl ih =>
      intro h'
      rw [checkEnabled]
      by_cases hm : (List.lookup m services).isNone = true
      · rw [if_pos hm]
        exact ⟨_, rfl⟩
      · rw [if_neg hm]
        apply ih
        obtain ⟨n, hn, hnl⟩ := h'
        rcases List.mem_cons.mp hn with rfl | hn
        · exact absurd (by simp [hnl]) hm
        · exact ⟨n, hn, hnl⟩
  obtain ⟨msg, hmsg⟩ := hchk l h
  refine ⟨msg, hmsg, ?_, ?_⟩
  · simp [resolveEnabled, hmsg]
  · simp [compile, resolveEnabled, hmsg]

/-- Claim C7 (witness): requesting the undeclared name "ghost" fails the whole
pipeline with the unknown-service error. -/
theorem c7_unknown_service_witness :
    compile canonRun0 services2 (some ["ghost"]) =
      Except.error "service ghost not found but was specified in --services-enabled" := by
  obtain ⟨msg, h1, h2, h3⟩ :=
    c7_unknown_service canonRun0 services2 ["ghost"] ⟨"ghost", by simp, rfl⟩
  have hval : checkEnabled services2 ["ghost"] =
      Except.error "service ghost not found but was specified in --services-enabled" := rfl
  rw [hval] at h1
  cases h1
  exact h3

/-- Claim C8: the restart extension with on_failure false and finish unset sets
finish to exactly the exit-125 template; with on_failure true it leaves the
record unchanged and derives nothing. -/
theorem c8_restart_extension (canonRun : String → String) (name : String) (r : Restart)
    (s : Service) (hext : s.extensions = some { log := none, restart := some r }) :
    (r.on_failure = false → s.finish = none →
      expandService canonRun name s =
        Except.ok ({ s with finish := some "#!/bin/sh\nexit 125\n" }, [])) ∧
    (r.on_failure = true → expandService canonRun name s = Except.ok (s, [])) := by
  constructor
  · intro hof hfin
    simp [expandService, applyRestart, hext, hof, hfin, no_restart_on_failure]
  · intro hof
    simp [expandService, applyRestart, hext, hof]

/-- Claim C8 (witness): concrete expansions of the two restart variants. -/
theorem c8_restart_extension_witness :
    expandService canonRun0 "a" svcRstF =
      Except.ok ({ svcRstF with finish := some "#!/bin/sh\nexit 125\n" }, []) ∧
    expandService canonRun0 "a" svcRstT = Except.ok (svcRstT, []) :=
  ⟨(c8_restart_extension canonRun0 "a" { on_failure := false } svcRstF rfl).1 rfl rfl,
   (c8_restart_extension canonRun0 "a" { on_failure := true } svcRstT rfl).2 rfl⟩

/-- Claim C9: the resolver terminates on every graph (it is a total function,
defined by a decreasing visited-set measure that cycles cannot defeat) and
its result is exactly the set of names reachable from the initial set; no
cycle error exists. -/
theorem c9_reachability (services : List (String × Service)) (enabled : Option (List String))
    (n : String) :
    n ∈ transitive_closure services enabled ↔
      Reachable services (enabled.getD (services.map Prod.fst)) n := by
  constructor
  · intro hn
    refine tcLoop_sound (Reachable services (enabled.getD (services.map Prod.fst)))
      services [] [] _ ?_ (by simp) ?_ n hn
    · intro m hm d hd
      exact Reachable.step hm hd
    · intro x hx
      exact Reachable.base hx
  · intro hr
    induction hr with
    | base h => exact tc_mem_init services enabled _ h
    | step hm hd ih => exact tc_closed services enabled _ ih _ hd

/-- Claim C10: every derived record synthesized by a generation has extensions,
up, finish and producer_for unset and carries the derived tag; a generation
made only of such records derives nothing further, so the driver stops one
generation later (and `driveAux` is total). -/
theorem c10_derived_fixed_point (enabled : List String) (canonRun : String → String)
    (gen : List (String × Service × Bool)) (em : List Emitted)
    (next : List (String × Service × Bool))
    (h : processGeneration enabled canonRun gen = Except.ok (em, next)) :
    (∀ e ∈ next, e.2.1.extensions = none ∧ e.2.1.up = none ∧ e.2.1.finish = none ∧
      e.2.1.producer_for = none ∧ e.2.2 = true) ∧
    (∃ em2, processGeneration enabled canonRun next = Except.ok (em2, [])) := by
  constructor
  · exact processGeneration_derived enabled canonRun gen em next h
  · apply processGeneration_no_ext
    intro e he
    exact (processGeneration_derived enabled canonRun gen em next h e he).1

/-- Claim C10 (witness): the derived record of the concrete "web" generation is
clean of extensions, up, finish and producer_for, and carries the derived
tag. -/
theorem c10_derived_fixed_point_witness :
    svcWebLog.extensions = none ∧ svcWebLog.up = none ∧ svcWebLog.finish = none ∧
      svcWebLog.producer_for = none ∧ true = true :=
  (c10_derived_fixed_point ["web"] canonRun0 [("web", svcWeb, false)]
    [⟨"web", svcWebProducer, classify "web" svcWebProducer⟩]
    [("web-log", svcWebLog, true)] rfl).1
    ("web-log", svcWebLog, true) (by simp)

end S6
